import Mathlib

/-!
# Verification of the `alice` middleware-chaining package (`chain.go`)

A shallow embedding of `src/chain.go`.  The package composes HTTP middleware:

* `ContextHandler` is the handler interface, whose single method
  `ServeHTTPContext` takes a context, a response writer and a request.
  We model the handler abstractly over four type parameters:
  `Γ` (the `context.Context`), `ρ` (the `http.ResponseWriter`),
  `σ` (the `*http.Request`) and `ε` (the observable effect of serving —
  in Go this is a side effect on the response writer; here the handler
  returns it as a value).
* `ContextHandlerFunc` is the function-shaped variant.
* `Constructor` is `func(ContextHandler) ContextHandler`.
* `Chain` stores a Go slice of constructors.  The value-level semantics
  (which elements, in which order) is modelled with a Lean list; the
  memory-level semantics of Go slices (backing arrays, aliasing,
  `make`/`copy`/`append` allocation) is modelled separately below with an
  explicit heap of arrays, so that the non-aliasing guarantees of
  `Append`/`Extend` are actual theorems and not artifacts of purity.
* `log.Fatalf` (reached when the terminal handler is `nil`) aborts the
  process and never returns; materialization is therefore embedded as an
  `Except FatalError` value.  Go's nilable interface/function arguments
  are embedded as `Option`.
-/

namespace Alice

/-! ## Value-level model of handlers, constructors and chains -/

/-- The `ContextHandler` interface of `chain.go`: one method
`ServeHTTPContext(context.Context, http.ResponseWriter, *http.Request)`.
The effect of serving is returned as a value of type `ε`. -/
structure ContextHandler (Γ ρ σ ε : Type) where
  serveHTTPContext : Γ → ρ → σ → ε

/-- `type ContextHandlerFunc func(context.Context, http.ResponseWriter, *http.Request)`. -/
abbrev ContextHandlerFunc (Γ ρ σ ε : Type) := Γ → ρ → σ → ε

/-- The `ServeHTTPContext` method of `ContextHandlerFunc`: `h(ctx, rw, r)`. -/
def ContextHandlerFunc.serveHTTPContextF {Γ ρ σ ε : Type}
    (h : ContextHandlerFunc Γ ρ σ ε) (ctx : Γ) (rw : ρ) (r : σ) : ε :=
  h ctx rw r

/-- A `ContextHandlerFunc` used as a `ContextHandler` (Go interface
satisfaction through the `ServeHTTPContext` method). -/
def ContextHandlerFunc.asHandler {Γ ρ σ ε : Type}
    (h : ContextHandlerFunc Γ ρ σ ε) : ContextHandler Γ ρ σ ε :=
  ⟨fun ctx rw r => h ctx rw r⟩

/-- `type Constructor func(ContextHandler) ContextHandler`. -/
abbrev Constructor (Γ ρ σ ε : Type) :=
  ContextHandler Γ ρ σ ε → ContextHandler Γ ρ σ ε

/-- `type ContextAdapter struct { ctx context.Context; handler ContextHandler }`. -/
structure ContextAdapter (Γ ρ σ ε : Type) where
  ctx : Γ
  handler : ContextHandler Γ ρ σ ε

/-- `func NewContextAdapter(c context.Context, handler ContextHandler) *ContextAdapter`. -/
def NewContextAdapter {Γ ρ σ ε : Type} (c : Γ) (handler : ContextHandler Γ ρ σ ε) :
    ContextAdapter Γ ρ σ ε :=
  { ctx := c, handler := handler }

/-- `func (ca *ContextAdapter) ServeHTTP(rw, req) { ca.handler.ServeHTTPContext(ca.ctx, rw, req) }`. -/
def ContextAdapter.serveHTTP {Γ ρ σ ε : Type}
    (ca : ContextAdapter Γ ρ σ ε) (rw : ρ) (req : σ) : ε :=
  ca.handler.serveHTTPContext ca.ctx rw req

/-- `type Chain struct { constructors []Constructor }` — value level: the
sequence of stored constructors. -/
structure Chain (Γ ρ σ ε : Type) where
  constructors : List (Constructor Γ ρ σ ε)

/-- `func New(constructors ...Constructor) Chain`: `c := Chain{}` followed by
`c.constructors = append(c.constructors, constructors...)`; at the value level
appending to the nil slice yields exactly the given sequence. -/
def New {Γ ρ σ ε : Type} (constructors : List (Constructor Γ ρ σ ε)) : Chain Γ ρ σ ε :=
  { constructors := constructors }

/-- The abort caused by `log.Fatalf("Error Contexthandler cant be null")`:
`log.Fatalf` never returns, so materialization with a nil terminal handler
produces no adapter. -/
inductive FatalError : Type where
  | contextHandlerNull : FatalError
deriving DecidableEq

/-- The loop `for i := len(c.constructors) - 1; i >= 0; i-- { final = c.constructors[i](final) }`
of `ThenWithContext`, as a downward-counting recursion over the index.
(The default supplied to `getD` is never reached: the loop only reads
indices below the length.) -/
def composeLoop {Γ ρ σ ε : Type} (cs : List (Constructor Γ ρ σ ε)) :
    Nat → ContextHandler Γ ρ σ ε → ContextHandler Γ ρ σ ε
  | 0, final => final
  | i + 1, final => composeLoop cs i ((cs.getD i (fun hh => hh)) final)

/-- `func (c Chain) ThenWithContext(cnx context.Context, h ContextHandler) *ContextAdapter`:
if `h != nil` the terminal is `h` and the constructor loop runs, and the
result is `NewContextAdapter(cnx, final)`; otherwise `log.Fatalf` aborts. -/
def Chain.thenWithContext {Γ ρ σ ε : Type} (c : Chain Γ ρ σ ε) (cnx : Γ)
    (h : Option (ContextHandler Γ ρ σ ε)) :
    Except FatalError (ContextAdapter Γ ρ σ ε) :=
  match h with
  | some hh =>
      Except.ok (NewContextAdapter cnx (composeLoop c.constructors c.constructors.length hh))
  | none => Except.error FatalError.contextHandlerNull

/-- `func (c Chain) ThenFuncWithContext(cnx context.Context, fn ContextHandlerFunc) *ContextAdapter`:
`if fn == nil { return c.ThenWithContext(cnx, nil) }` and otherwise
`return c.ThenWithContext(cnx, ContextHandlerFunc(fn))`. -/
def Chain.thenFuncWithContext {Γ ρ σ ε : Type} (c : Chain Γ ρ σ ε) (cnx : Γ)
    (fn : Option (ContextHandlerFunc Γ ρ σ ε)) :
    Except FatalError (ContextAdapter Γ ρ σ ε) :=
  match fn with
  | none => c.thenWithContext cnx none
  | some f => c.thenWithContext cnx (some f.asHandler)

/-- `func (c Chain) Append(constructors ...Constructor) Chain` — value level:
`newCons` is filled by the two `copy` calls with the receiver's elements
followed by the given ones, and passed to `New`. -/
def Chain.append {Γ ρ σ ε : Type} (c : Chain Γ ρ σ ε)
    (constructors : List (Constructor Γ ρ σ ε)) : Chain Γ ρ σ ε :=
  New (c.constructors ++ constructors)

/-- `func (c Chain) Extend(chain Chain) Chain { return c.Append(chain.constructors...) }`. -/
def Chain.extend {Γ ρ σ ε : Type} (c : Chain Γ ρ σ ε) (chain : Chain Γ ρ σ ε) :
    Chain Γ ρ σ ε :=
  c.append chain.constructors

/-! ## Trace instrumentation

To observe invocation order and invocation counts of the stored
constructors, we instantiate the abstract types: contexts, response
writers and requests are `Unit`, and the effect of serving is a trace,
the list of the labels of the middleware layers traversed, outermost
first.  `wrapCon i` is a middleware constructor that records label `i`
and then calls the inner handler; `traceTerminalAt m` is a terminal
handler that records only label `m`. -/

/-- A middleware constructor labelled `i`: its handler records `i` and then
delegates to the wrapped inner handler. -/
def wrapCon (i : Nat) : Constructor Unit Unit Unit (List Nat) :=
  fun inner => ⟨fun c rw rq => i :: inner.serveHTTPContext c rw rq⟩

/-- A terminal handler that records only the label `m`. -/
def traceTerminalAt (m : Nat) : ContextHandler Unit Unit Unit (List Nat) :=
  ⟨fun _ _ _ => [m]⟩

/-- The chain `New(wrapCon 0, wrapCon 1, ..., wrapCon (n-1))`. -/
def traceChain (n : Nat) : Chain Unit Unit Unit (List Nat) :=
  New ((List.range n).map wrapCon)

/-- Materialize `traceChain n` against the terminal `traceTerminalAt m` and
dispatch one request through the resulting adapter, returning the trace. -/
def materializeTraceWith (n m : Nat) : Except FatalError (List Nat) :=
  ((traceChain n).thenWithContext () (some (traceTerminalAt m))).map
    (fun ad => ad.serveHTTP () ())

/-! ## Memory-level model of the constructor slices

`Chain.constructors` is a Go slice.  `Append` builds its result with
`make`/`copy`/`copy` and `New` (which appends the elements to a nil
slice); the spec's non-aliasing and non-mutation guarantees are about
the backing arrays of these slices.  We model a heap of arrays
(`Heap`), a slice value as either the nil slice or a view
`(array id, offset, length)` into one array (`GoSlice`), and the slice
primitives `make`, `copy` and `append`-to-nil used by `chain.go`.
Array identifiers below `next` are allocated; `alloc` hands out fresh
identifiers, so aliasing is expressible (two slices with the same array
id) and "freshly allocated" is provable. -/

/-- A heap of Go backing arrays: the contents of each array (indexed by a
`Nat` array identifier), and the next fresh array identifier. -/
structure Heap (α : Type) where
  mem : Nat → List α
  next : Nat

/-- A Go slice value: `nil`, or a view of `len` elements of array `arr`
starting at `off`. -/
inductive GoSlice : Type where
  | nil : GoSlice
  | mk (arr : Nat) (off len : Nat) : GoSlice
deriving DecidableEq

/-- `len(s)` of a Go slice. -/
def GoSlice.len : GoSlice → Nat
  | .nil => 0
  | .mk _ _ n => n

/-- The elements a slice views, read from the heap. -/
def Heap.read {α : Type} (h : Heap α) : GoSlice → List α
  | .nil => []
  | .mk a off n => ((h.mem a).drop off).take n

/-- A well-formed slice: a non-nil slice views an allocated array and stays
inside its bounds. -/
def Heap.validSlice {α : Type} (h : Heap α) : GoSlice → Prop
  | .nil => True
  | .mk a off n => a < h.next ∧ off + n ≤ (h.mem a).length

instance {α : Type} (h : Heap α) (s : GoSlice) : Decidable (h.validSlice s) :=
  match s with
  | .nil => isTrue trivial
  | .mk a off n => inferInstanceAs (Decidable (a < h.next ∧ off + n ≤ (h.mem a).length))

/-- Overwrite the contents of array `a`. -/
def Heap.writeArr {α : Type} (h : Heap α) (a : Nat) (l : List α) : Heap α :=
  { mem := fun i => if i = a then l else h.mem i, next := h.next }

/-- Allocate a fresh array holding `l` and return a slice of all of it. -/
def Heap.alloc {α : Type} (h : Heap α) (l : List α) : GoSlice × Heap α :=
  (GoSlice.mk h.next 0 l.length,
   { mem := fun i => if i = h.next then l else h.mem i, next := h.next + 1 })

/-- Replace the elements of `dst` from position `off` on by `src`
(used with `off + src.length ≤ dst.length`). -/
def setRange {α : Type} (dst : List α) (off : Nat) (src : List α) : List α :=
  dst.take off ++ src ++ dst.drop (off + src.length)

/-- Go's `copy(dst, src)`: copy `min(len(dst), len(src))` elements of `src`
into `dst`'s backing array starting at `dst`'s offset. -/
def goCopy {α : Type} (h : Heap α) (dst src : GoSlice) : Heap α :=
  match dst with
  | .nil => h
  | .mk a off dlen =>
      h.writeArr a (setRange (h.mem a) off ((h.read src).take (min dlen src.len)))

/-- Go's `make([]Constructor, n)`: a freshly allocated array of `n` zero
values. -/
def goMake {α : Type} [Inhabited α] (h : Heap α) (n : Nat) : GoSlice × Heap α :=
  h.alloc (List.replicate n default)

/-- Go's `append(nilSlice, src...)`: with no elements it returns the nil
slice unchanged; otherwise it allocates a fresh array and copies the
elements into it. -/
def goAppendNil {α : Type} (h : Heap α) (src : GoSlice) : GoSlice × Heap α :=
  if src.len = 0 then (GoSlice.nil, h) else h.alloc (h.read src)

/-- `func New(constructors ...Constructor) Chain` at the memory level:
`c := Chain{}` then `c.constructors = append(c.constructors, constructors...)`,
an append to the nil slice. -/
def goNew {α : Type} (h : Heap α) (constructors : GoSlice) : GoSlice × Heap α :=
  goAppendNil h constructors

/-- The subslice `s[k:]`. -/
def GoSlice.tailFrom : GoSlice → Nat → GoSlice
  | .nil, _ => .nil
  | .mk a off n, k => .mk a (off + k) (n - k)

/-- `func (c Chain) Append(constructors ...Constructor) Chain` at the memory
level: `newCons := make([]Constructor, len(c.constructors)+len(constructors))`,
`copy(newCons, c.constructors)`, `copy(newCons[len(c.constructors):], constructors)`,
then `New(newCons...)`. -/
def goChainAppend {α : Type} [Inhabited α] (h : Heap α) (recv cons : GoSlice) :
    GoSlice × Heap α :=
  let made := goMake h (recv.len + cons.len)
  let h2 := goCopy made.2 made.1 recv
  let h3 := goCopy h2 (made.1.tailFrom recv.len) cons
  goNew h3 made.1

/-- `func (c Chain) Extend(chain Chain) Chain { return c.Append(chain.constructors...) }`
at the memory level. -/
def goChainExtend {α : Type} [Inhabited α] (h : Heap α) (recv other : GoSlice) :
    GoSlice × Heap α :=
  goChainAppend h recv other

/-- `ThenWithContext` reads the receiver's constructor slice from the heap
and composes; its body contains no writes, so at the memory level
materialization is a pure function of the heap. -/
def goThenWithContext {Γ ρ σ ε : Type} (h : Heap (Constructor Γ ρ σ ε)) (c : GoSlice)
    (cnx : Γ) (t : Option (ContextHandler Γ ρ σ ε)) :
    Except FatalError (ContextAdapter Γ ρ σ ε) :=
  (Chain.mk (h.read c)).thenWithContext cnx t

/-- The Go zero value of the `Constructor` function type is nil; the cells
of a freshly `make`d constructor slice are never read before being
overwritten by `copy`, so the choice of default is unobservable.  We use
the identity constructor. -/
instance {Γ ρ σ ε : Type} : Inhabited (Constructor Γ ρ σ ε) :=
  ⟨fun hh => hh⟩

/-- `h2` extends `h`: every array allocated in `h` is unchanged, and the
allocator has only moved forward. -/
def Heap.Grows {α : Type} (h h2 : Heap α) : Prop :=
  h.next ≤ h2.next ∧ ∀ a, a < h.next → h2.mem a = h.mem a

/-! ## Concrete fixtures (used by the witness theorems) -/

/-- A concrete constructor value for populating heaps. -/
def idCon : Constructor Unit Unit Unit Unit := fun hh => hh

/-- A concrete heap: one allocated array (id 0) holding two constructors. -/
def heapW : Heap (Constructor Unit Unit Unit Unit) :=
  { mem := fun _ => [idCon, idCon], next := 1 }

/-- A concrete slice viewing both elements of array 0. -/
def sliceW : GoSlice := GoSlice.mk 0 0 2

/-- A concrete slice viewing the first element of array 0. -/
def sliceW1 : GoSlice := GoSlice.mk 0 0 1

/-! ## The index loop is the right fold -/

theorem composeLoop_append_singleton {Γ ρ σ ε : Type}
    (cs : List (Constructor Γ ρ σ ε)) (k : Constructor Γ ρ σ ε) :
    ∀ n, n ≤ cs.length → ∀ f, composeLoop (cs ++ [k]) n f = composeLoop cs n f := by
  intro n
  induction n with
  | zero => intro _ f; rfl
  | succ i ih =>
      intro hle f
      have hi : i < cs.length := Nat.lt_of_succ_le hle
      simp only [composeLoop]
      rw [List.getD_append _ _ _ _ hi]
      exact ih (Nat.le_of_succ_le hle) _

theorem composeLoop_eq_foldr {Γ ρ σ ε : Type} (cs : List (Constructor Γ ρ σ ε)) :
    ∀ t, composeLoop cs cs.length t = cs.foldr (fun k acc => k acc) t := by
  induction cs using List.reverseRecOn with
  | nil => intro t; rfl
  | append_singleton cs k ih =>
      intro t
      have hlen : (cs ++ [k]).length = cs.length + 1 := by simp
      rw [hlen]
      simp only [composeLoop]
      rw [List.getD_append_right _ _ _ _ (Nat.le_refl cs.length)]
      simp only [Nat.sub_self, List.getD]
      rw [composeLoop_append_singleton cs k cs.length (Nat.le_refl _)]
      rw [ih]
      simp [List.foldr_append]

/-! ## Trace lemmas -/

theorem foldr_wrapCon (l : List Nat) (m : Nat) :
    ((l.map wrapCon).foldr (fun k acc => k acc) (traceTerminalAt m)).serveHTTPContext () () ()
      = l ++ [m] := by
  induction l with
  | nil => rfl
  | cons i l ih =>
      simp only [List.map_cons, List.foldr_cons, wrapCon, List.cons_append]
      rw [ih]

theorem materializeTraceWith_eq (n m : Nat) :
    materializeTraceWith n m = Except.ok (List.range n ++ [m]) := by
  unfold materializeTraceWith traceChain
  simp only [Chain.thenWithContext, New, Except.map, ContextAdapter.serveHTTP,
    NewContextAdapter]
  rw [composeLoop_eq_foldr]
  rw [foldr_wrapCon]

theorem count_range_append_self {n i : Nat} (hi : i < n) :
    (List.range n ++ [n]).count i = 1 := by
  rw [List.count_append]
  have h1 : (List.range n).count i = 1 :=
    List.count_eq_one_of_mem (List.nodup_range n) (List.mem_range.mpr hi)
  have h2 : ([n] : List Nat).count i = 0 :=
    List.count_eq_zero_of_not_mem (by simp; omega)
  omega

/-! ## Heap lemmas -/

theorem Heap.Grows.read_eq {α : Type} {h h2 : Heap α} (hg : h.Grows h2) {s : GoSlice}
    (hs : h.validSlice s) : h2.read s = h.read s := by
  cases s with
  | nil => rfl
  | mk a off n =>
      obtain ⟨ha, _⟩ := hs
      simp only [Heap.read, hg.2 a ha]

theorem Heap.Grows.valid {α : Type} {h h2 : Heap α} (hg : h.Grows h2) {s : GoSlice}
    (hs : h.validSlice s) : h2.validSlice s := by
  cases s with
  | nil => trivial
  | mk a off n =>
      obtain ⟨ha, hlen⟩ := hs
      exact ⟨Nat.lt_of_lt_of_le ha hg.1, by rw [hg.2 a ha]; exact hlen⟩

theorem Heap.validSlice_read_length {α : Type} {h : Heap α} {s : GoSlice}
    (hs : h.validSlice s) : (h.read s).length = s.len := by
  cases s with
  | nil => rfl
  | mk a off n =>
      obtain ⟨_, hlen⟩ := hs
      simp only [Heap.read, GoSlice.len, List.length_take, List.length_drop]
      omega

/-! ## Step lemmas for the slice primitives -/

theorem Heap.alloc_grows {α : Type} (h : Heap α) (l : List α) : h.Grows (h.alloc l).2 :=
  ⟨Nat.le_succ _, fun _ ha => if_neg (Nat.ne_of_lt ha)⟩

theorem Heap.writeArr_mem_self {α : Type} (h : Heap α) (a : Nat) (l : List α) :
    (h.writeArr a l).mem a = l :=
  if_pos rfl

theorem Heap.writeArr_mem_ne {α : Type} (h : Heap α) {a b : Nat} (l : List α)
    (hb : b ≠ a) : (h.writeArr a l).mem b = h.mem b :=
  if_neg hb

theorem Heap.writeArr_writeArr {α : Type} (h : Heap α) (a : Nat) (l1 l2 : List α) :
    (h.writeArr a l1).writeArr a l2 = h.writeArr a l2 := by
  unfold Heap.writeArr
  congr 1
  funext i
  by_cases hi : i = a <;> simp [hi]

theorem GoSlice.len_mk (a : Nat) (off n : Nat) : GoSlice.len (GoSlice.mk a off n) = n :=
  rfl

theorem Heap.read_mk {α : Type} (h : Heap α) (a : Nat) (off n : Nat) :
    h.read (GoSlice.mk a off n) = ((h.mem a).drop off).take n :=
  rfl

theorem Heap.alloc_read_fst {α : Type} (h : Heap α) (l : List α) :
    ((h.alloc l).2).read (h.alloc l).1 = l := by
  simp [Heap.alloc, Heap.read]

theorem Heap.alloc_valid_fst {α : Type} (h : Heap α) (l : List α) :
    ((h.alloc l).2).validSlice (h.alloc l).1 :=
  ⟨Nat.lt_succ_self _, by simp [Heap.alloc]⟩

theorem goMake_fst {α : Type} [Inhabited α] (h : Heap α) (n : Nat) :
    (goMake h n).1 = GoSlice.mk h.next 0 n := by
  simp [goMake, Heap.alloc]

theorem goMake_mem_self {α : Type} [Inhabited α] (h : Heap α) (n : Nat) :
    (goMake h n).2.mem h.next = List.replicate n default := by
  simp [goMake, Heap.alloc]

theorem goMake_mem_ne {α : Type} [Inhabited α] (h : Heap α) (n : Nat) {a : Nat}
    (ha : a ≠ h.next) : (goMake h n).2.mem a = h.mem a := by
  simp [goMake, Heap.alloc, ha]

theorem goMake_grows {α : Type} [Inhabited α] (h : Heap α) (n : Nat) :
    h.Grows (goMake h n).2 :=
  Heap.alloc_grows h _

theorem goCopy_mk {α : Type} (h : Heap α) (a : Nat) (off dlen : Nat) (src : GoSlice) :
    goCopy h (GoSlice.mk a off dlen) src
      = h.writeArr a (setRange (h.mem a) off ((h.read src).take (min dlen src.len))) :=
  rfl

theorem setRange_replicate_left {α : Type} [Inhabited α] (L : List α) (n2 : Nat) :
    setRange (List.replicate (L.length + n2) default) 0 L
      = L ++ List.replicate n2 default := by
  simp [setRange, List.drop_replicate, Nat.add_sub_cancel_left]

theorem setRange_append_left {α : Type} (L1 L2 pad : List α) (hpad : pad.length = L2.length) :
    setRange (L1 ++ pad) L1.length L2 = L1 ++ L2 := by
  unfold setRange
  rw [List.take_left]
  rw [List.drop_eq_nil_of_le (by simp [hpad])]
  simp

/-! ## The two copies fill the fresh array with the receiver's elements
followed by the given ones -/

theorem goChainAppend_core {α : Type} [Inhabited α] (h : Heap α) (recv cons : GoSlice)
    (hr : h.validSlice recv) (hc : h.validSlice cons) :
    ∃ h3 : Heap α,
      goChainAppend h recv cons = goNew h3 (GoSlice.mk h.next 0 (recv.len + cons.len))
      ∧ h3.mem h.next = h.read recv ++ h.read cons
      ∧ (∀ a, a ≠ h.next → h3.mem a = h.mem a)
      ∧ h3.next = h.next + 1 := by
  have hlen1 := Heap.validSlice_read_length hr
  have hlen2 := Heap.validSlice_read_length hc
  have hstep1 : goCopy (goMake h (recv.len + cons.len)).2 (goMake h (recv.len + cons.len)).1 recv
      = (goMake h (recv.len + cons.len)).2.writeArr h.next
          (h.read recv ++ List.replicate cons.len default) := by
    rw [goMake_fst, goCopy_mk, goMake_mem_self, (goMake_grows h _).read_eq hr,
      Nat.min_eq_right (Nat.le_add_right recv.len cons.len)]
    rw [← hlen1, List.take_length, setRange_replicate_left]
  have hgrows2 : h.Grows ((goMake h (recv.len + cons.len)).2.writeArr h.next
      (h.read recv ++ List.replicate cons.len default)) := by
    constructor
    · exact Nat.le_succ _
    · intro a ha
      rw [Heap.writeArr_mem_ne _ _ (Nat.ne_of_lt ha), goMake_mem_ne h _ (Nat.ne_of_lt ha)]
  have hstep2 : goCopy ((goMake h (recv.len + cons.len)).2.writeArr h.next
          (h.read recv ++ List.replicate cons.len default))
        ((goMake h (recv.len + cons.len)).1.tailFrom recv.len) cons
      = (goMake h (recv.len + cons.len)).2.writeArr h.next (h.read recv ++ h.read cons) := by
    have htail : (goMake h (recv.len + cons.len)).1.tailFrom recv.len
        = GoSlice.mk h.next recv.len cons.len := by
      rw [goMake_fst]
      simp [GoSlice.tailFrom, Nat.add_sub_cancel_left]
    rw [htail, goCopy_mk, Heap.writeArr_mem_self, hgrows2.read_eq hc, Nat.min_self]
    rw [← hlen2, List.take_length, ← hlen1]
    rw [setRange_append_left _ _ _ (by simp)]
    rw [Heap.writeArr_writeArr]
  refine ⟨(goMake h (recv.len + cons.len)).2.writeArr h.next (h.read recv ++ h.read cons),
    ?_, Heap.writeArr_mem_self _ _ _, ?_, rfl⟩
  · have key : goChainAppend h recv cons
        = goNew (goCopy (goCopy (goMake h (recv.len + cons.len)).2
              (goMake h (recv.len + cons.len)).1 recv)
            ((goMake h (recv.len + cons.len)).1.tailFrom recv.len) cons)
          (goMake h (recv.len + cons.len)).1 := rfl
    rw [key, hstep1, hstep2, goMake_fst]
  · intro a ha
    rw [Heap.writeArr_mem_ne _ _ ha, goMake_mem_ne h _ ha]

/-- Full specification of `Append` at the memory level: the result views a
sequence equal to the receiver's followed by the given one; no array that
existed before is touched; the result slice is well formed; and its backing
array is the one freshly allocated inside `New` (identifier `h.next + 1`),
so it is distinct from every previously existing array. -/
theorem goChainAppend_spec {α : Type} [Inhabited α] (h : Heap α) (recv cons : GoSlice)
    (hr : h.validSlice recv) (hc : h.validSlice cons) :
    (goChainAppend h recv cons).2.read (goChainAppend h recv cons).1
        = h.read recv ++ h.read cons
    ∧ h.Grows (goChainAppend h recv cons).2
    ∧ (goChainAppend h recv cons).2.validSlice (goChainAppend h recv cons).1
    ∧ (∀ arr off len, (goChainAppend h recv cons).1 = GoSlice.mk arr off len
        → arr = h.next + 1) := by
  obtain ⟨h3, heq, hmemA, hmemO, hnext3⟩ := goChainAppend_core h recv cons hr hc
  have hlen1 := Heap.validSlice_read_length hr
  have hlen2 := Heap.validSlice_read_length hc
  have h3grows : h.Grows h3 := by
    constructor
    · rw [hnext3]; exact Nat.le_succ _
    · intro a ha; exact hmemO a (Nat.ne_of_lt ha)
  rw [heq]
  by_cases hz : recv.len + cons.len = 0
  · have hr0 : h.read recv = [] :=
      List.eq_nil_of_length_eq_zero (by omega)
    have hc0 : h.read cons = [] :=
      List.eq_nil_of_length_eq_zero (by omega)
    have hgo : goNew h3 (GoSlice.mk h.next 0 (recv.len + cons.len)) = (GoSlice.nil, h3) := by
      simp only [goNew, goAppendNil, GoSlice.len_mk]
      rw [if_pos hz]
    rw [hgo]
    refine ⟨by rw [hr0, hc0]; rfl, h3grows, trivial, ?_⟩
    intro arr off len hcontra
    exact absurd hcontra (by simp)
  · have hl : (h.read recv ++ h.read cons).length = recv.len + cons.len := by
      simp [hlen1, hlen2]
    have hreadA : h3.read (GoSlice.mk h.next 0 (recv.len + cons.len))
        = h.read recv ++ h.read cons := by
      rw [Heap.read_mk, hmemA, List.drop_zero, ← hl, List.take_length]
    have hgo : goNew h3 (GoSlice.mk h.next 0 (recv.len + cons.len))
        = h3.alloc (h.read recv ++ h.read cons) := by
      simp only [goNew, goAppendNil, GoSlice.len_mk]
      rw [if_neg hz, hreadA]
    rw [hgo]
    refine ⟨Heap.alloc_read_fst h3 _, ?_, Heap.alloc_valid_fst h3 _, ?_⟩
    · constructor
      · show h.next ≤ h3.next + 1
        omega
      · intro a ha
        rw [(Heap.alloc_grows h3 _).2 a (by omega), hmemO a (Nat.ne_of_lt ha)]
    · intro arr off len hmk
      have hfst : (h3.alloc (h.read recv ++ h.read cons)).1
          = GoSlice.mk h3.next 0 (h.read recv ++ h.read cons).length := rfl
      rw [hfst] at hmk
      injection hmk with e1 e2 e3
      omega

/-! ## The claims -/

/-- Claim C1: for every chain `New(c1, ..., cn)`, context and non-nil
terminal handler `h`, the adapter returned by `ThenWithContext` holds the
handler `c1(c2(...(cn(h))))` — the loop applies the constructors from last
to first, i.e. the right fold of the list over `h` — and a dispatched
request traverses `c1`'s wrapping behavior first, then `c2`'s, ..., then
`cn`'s, then `h`: with each constructor instrumented to record its index
and the terminal recording `m`, the dispatched trace is
`[0, 1, ..., n-1, m]`. -/
theorem thenWithContext_composes_in_order :
    (∀ (Γ ρ σ ε : Type) (cs : List (Constructor Γ ρ σ ε)) (cnx : Γ)
        (t : ContextHandler Γ ρ σ ε),
        (New cs).thenWithContext cnx (some t)
          = Except.ok (NewContextAdapter cnx (cs.foldr (fun k acc => k acc) t)))
    ∧ (∀ n m : Nat, materializeTraceWith n m = Except.ok (List.range n ++ [m])) := by
  constructor
  · intro Γ ρ σ ε cs cnx t
    have hdef : (New cs).thenWithContext cnx (some t)
        = Except.ok (NewContextAdapter cnx (composeLoop cs cs.length t)) := rfl
    rw [hdef, composeLoop_eq_foldr]
  · exact materializeTraceWith_eq

/-- Claim C2: for every chain and context, `ThenWithContext` with a nil
terminal handler hits `log.Fatalf` — a fatal configuration error — and
produces no adapter (in particular no default handler is substituted). -/
theorem thenWithContext_nil_terminal_fatal :
    ∀ (Γ ρ σ ε : Type) (c : Chain Γ ρ σ ε) (cnx : Γ),
      c.thenWithContext cnx none = Except.error FatalError.contextHandlerNull := by
  intro Γ ρ σ ε c cnx
  rfl

/-- Claim C3: `Append` (and likewise `Extend`) leaves the receiver
completely unmodified and its result shares no backing storage with the
receiver: the receiver's viewed sequence is unchanged, every array that
existed before the call is untouched, the result's backing array is fresh
(id at least the old allocator bound, hence distinct from the receiver's),
materializing the receiver afterwards behaves exactly as before, and
either chain can be further extended without affecting the other. -/
theorem append_leaves_receiver_untouched {Γ ρ σ ε : Type}
    (h : Heap (Constructor Γ ρ σ ε)) (recv cons : GoSlice)
    (hr : h.validSlice recv) (hc : h.validSlice cons) :
    (goChainAppend h recv cons).2.read recv = h.read recv
    ∧ (∀ a, a < h.next → (goChainAppend h recv cons).2.mem a = h.mem a)
    ∧ (∀ arr off len, (goChainAppend h recv cons).1 = GoSlice.mk arr off len
        → h.next ≤ arr)
    ∧ (∀ (cnx : Γ) (t : Option (ContextHandler Γ ρ σ ε)),
        goThenWithContext (goChainAppend h recv cons).2 recv cnx t
          = goThenWithContext h recv cnx t)
    ∧ (∀ ys, (goChainAppend h recv cons).2.validSlice ys →
        (goChainAppend (goChainAppend h recv cons).2 (goChainAppend h recv cons).1 ys).2.read
              recv
            = h.read recv
        ∧ (goChainAppend (goChainAppend h recv cons).2 recv ys).2.read
              (goChainAppend h recv cons).1
            = (goChainAppend h recv cons).2.read (goChainAppend h recv cons).1)
    ∧ goChainExtend h recv cons = goChainAppend h recv cons := by
  obtain ⟨hread, hgrows, hvalid, hfresh⟩ := goChainAppend_spec h recv cons hr hc
  refine ⟨hgrows.read_eq hr, hgrows.2, ?_, ?_, ?_, rfl⟩
  · intro arr off len hmk
    have := hfresh arr off len hmk
    omega
  · intro cnx t
    show (Chain.mk ((goChainAppend h recv cons).2.read recv)).thenWithContext cnx t
        = (Chain.mk (h.read recv)).thenWithContext cnx t
    rw [hgrows.read_eq hr]
  · intro ys hys
    obtain ⟨_, hg2, _, _⟩ :=
      goChainAppend_spec (goChainAppend h recv cons).2 (goChainAppend h recv cons).1 ys
        hvalid hys
    obtain ⟨_, hg3, _, _⟩ :=
      goChainAppend_spec (goChainAppend h recv cons).2 recv ys (hgrows.valid hr) hys
    constructor
    · rw [hg2.read_eq (hgrows.valid hr), hgrows.read_eq hr]
    · rw [hg3.read_eq hvalid]

theorem append_leaves_receiver_untouched_witness :
    (goChainAppend heapW sliceW sliceW1).2.read sliceW = heapW.read sliceW :=
  (append_leaves_receiver_untouched heapW sliceW sliceW1 (by decide) (by decide)).1

/-- Claim C4: `Append` returns a chain whose constructor sequence is exactly
the receiver's sequence followed by the given constructors, in order — at
the memory level the result slice views the concatenation of the two
sequences, and at the value level `append` is list concatenation. -/
theorem append_appends_in_order {Γ ρ σ ε : Type} (h : Heap (Constructor Γ ρ σ ε))
    (recv cons : GoSlice) (hr : h.validSlice recv) (hc : h.validSlice cons) :
    (goChainAppend h recv cons).2.read (goChainAppend h recv cons).1
        = h.read recv ++ h.read cons
    ∧ ∀ (c : Chain Γ ρ σ ε) (xs : List (Constructor Γ ρ σ ε)),
        (c.append xs).constructors = c.constructors ++ xs :=
  ⟨(goChainAppend_spec h recv cons hr hc).1, fun _ _ => rfl⟩

theorem append_appends_in_order_witness :
    (goChainAppend heapW sliceW sliceW1).2.read (goChainAppend heapW sliceW sliceW1).1
      = heapW.read sliceW ++ heapW.read sliceW1 :=
  (append_appends_in_order heapW sliceW sliceW1 (by decide) (by decide)).1

/-- Claim C5: `Extend` is exactly `Append` applied to the other chain's
entire constructor sequence (the method body is that call), with the same
resulting sequence — receiver's then other's — and the same non-mutation
guarantee; at the value level `extend` is `append` of the other's
constructor list. -/
theorem extend_equals_append {Γ ρ σ ε : Type} (h : Heap (Constructor Γ ρ σ ε))
    (c d : GoSlice) (hc : h.validSlice c) (hd : h.validSlice d) :
    goChainExtend h c d = goChainAppend h c d
    ∧ (goChainExtend h c d).2.read (goChainExtend h c d).1 = h.read c ++ h.read d
    ∧ (∀ a, a < h.next → (goChainExtend h c d).2.mem a = h.mem a)
    ∧ ∀ (cp dp : Chain Γ ρ σ ε), cp.extend dp = cp.append dp.constructors := by
  obtain ⟨hread, hgrows, _, _⟩ := goChainAppend_spec h c d hc hd
  exact ⟨rfl, hread, hgrows.2, fun _ _ => rfl⟩

theorem extend_equals_append_witness :
    goChainExtend heapW sliceW sliceW1 = goChainAppend heapW sliceW sliceW1 :=
  (extend_equals_append heapW sliceW sliceW1 (by decide) (by decide)).1

/-- Claim C6: materializing the empty chain `New()` against a non-nil
terminal `h` produces an adapter whose held handler is `h` itself, and
dispatching through that adapter is exactly invoking `h` with the bound
context. -/
theorem empty_chain_materializes_to_terminal :
    ∀ (Γ ρ σ ε : Type) (cnx : Γ) (t : ContextHandler Γ ρ σ ε),
      (New ([] : List (Constructor Γ ρ σ ε))).thenWithContext cnx (some t)
        = Except.ok (NewContextAdapter cnx t)
      ∧ ∀ (rw : ρ) (req : σ),
          (NewContextAdapter cnx t).serveHTTP rw req = t.serveHTTPContext cnx rw req := by
  intro Γ ρ σ ε cnx t
  exact ⟨rfl, fun _ _ => rfl⟩

/-- Claim C7: materialization does not modify the chain's stored constructor
sequence (the method body performs no writes: at the memory level it is the
pure function of the read sequence), each call invokes every stored
constructor exactly once (the instrumented trace contains every label
`i < n` exactly once), and the same chain may be materialized repeatedly,
each call performing an independent fresh composition against its own
terminal. -/
theorem materialization_fresh_and_invokes_once :
    (∀ (Γ ρ σ ε : Type) (h : Heap (Constructor Γ ρ σ ε)) (c : GoSlice) (cnx : Γ)
        (t : Option (ContextHandler Γ ρ σ ε)),
        goThenWithContext h c cnx t = (Chain.mk (h.read c)).thenWithContext cnx t)
    ∧ (∀ n m1 m2 : Nat,
        materializeTraceWith n m1 = Except.ok (List.range n ++ [m1])
        ∧ materializeTraceWith n m2 = Except.ok (List.range n ++ [m2]))
    ∧ (∀ n i : Nat, i < n → ∀ tr, materializeTraceWith n n = Except.ok tr
        → tr.count i = 1) := by
  refine ⟨fun Γ ρ σ ε h c cnx t => rfl,
    fun n m1 m2 => ⟨materializeTraceWith_eq n m1, materializeTraceWith_eq n m2⟩, ?_⟩
  intro n i hi tr htr
  rw [materializeTraceWith_eq] at htr
  have heq : List.range n ++ [n] = tr := by injection htr
  rw [← heq]
  exact count_range_append_self hi

theorem materialization_fresh_and_invokes_once_witness :
    ([0, 1, 2] : List Nat).count 1 = 1 :=
  materialization_fresh_and_invokes_once.2.2 2 1 (by decide) [0, 1, 2] (by rfl)

/-- Claim C8: `ThenFuncWithContext` with a nil terminal function behaves
identically to `ThenWithContext` with a nil terminal handler — the method
forwards that exact call — so it fails fast with the same fatal
configuration error. -/
theorem thenFuncWithContext_nil_func_matches :
    ∀ (Γ ρ σ ε : Type) (c : Chain Γ ρ σ ε) (cnx : Γ),
      c.thenFuncWithContext cnx none = c.thenWithContext cnx none
      ∧ c.thenFuncWithContext cnx none = Except.error FatalError.contextHandlerNull := by
  intro Γ ρ σ ε c cnx
  exact ⟨rfl, rfl⟩

/-- Claim C9: dispatching through a context-carrying adapter invokes the
held handler's `ServeHTTPContext` with exactly the held context, the given
response writer and the given request — the dispatch result is precisely
the delegated call's result, with no other logic. -/
theorem adapter_dispatch_delegates :
    ∀ (Γ ρ σ ε : Type) (ca : ContextAdapter Γ ρ σ ε) (rw : ρ) (req : σ),
      ca.serveHTTP rw req = ca.handler.serveHTTPContext ca.ctx rw req := by
  intro Γ ρ σ ε ca rw req
  rfl

/-- Claim C10: `Append` with zero additional constructors (the variadic
parameter is the nil slice) and `Extend` with the empty chain `New()`
(which is the nil-slice chain, produced without touching the heap) each
return a chain viewing a sequence element-for-element equal to the
receiver's, whose backing storage — when any exists — is freshly
allocated, never the receiver's own array. -/
theorem append_nothing_fresh_copy {Γ ρ σ ε : Type} (h : Heap (Constructor Γ ρ σ ε))
    (c : GoSlice) (hc : h.validSlice c) :
    (goChainAppend h c GoSlice.nil).2.read (goChainAppend h c GoSlice.nil).1 = h.read c
    ∧ goNew h GoSlice.nil = (GoSlice.nil, h)
    ∧ goChainExtend h c GoSlice.nil = goChainAppend h c GoSlice.nil
    ∧ (∀ arr off len, (goChainAppend h c GoSlice.nil).1 = GoSlice.mk arr off len
        → h.next ≤ arr)
    ∧ (∀ arr off len arr2 off2 len2, c = GoSlice.mk arr off len
        → (goChainAppend h c GoSlice.nil).1 = GoSlice.mk arr2 off2 len2
        → arr ≠ arr2) := by
  obtain ⟨hread, hgrows, hvalid, hfresh⟩ := goChainAppend_spec h c GoSlice.nil hc trivial
  refine ⟨?_, rfl, rfl, ?_, ?_⟩
  · rw [hread]
    exact List.append_nil _
  · intro arr off len hmk
    have := hfresh arr off len hmk
    omega
  · intro arr off len arr2 off2 len2 hcm hmk
    have h1 := hfresh arr2 off2 len2 hmk
    rw [hcm] at hc
    obtain ⟨h2, _⟩ := hc
    omega

theorem append_nothing_fresh_copy_witness :
    (goChainAppend heapW sliceW GoSlice.nil).2.read (goChainAppend heapW sliceW GoSlice.nil).1
      = heapW.read sliceW :=
  (append_nothing_fresh_copy heapW sliceW (by decide)).1

end Alice
